import Mathlib

/-!
Verification of the svr score-viewer core: the ingestion-and-normalization
pipeline (csv-handler.rs, cloud-handler.rs, data-types.rs) and the
polling/update logic of main.rs, shallowly embedded in Lean.

Modelling conventions:
* Strings are Lean `String`s; all string algorithms (substring containment,
  splitting on a character, lowercasing, whitespace trimming) are defined
  explicitly over the underlying character list, mirroring the Rust
  `str::contains`, `str::split`, `str::to_lowercase` and `str::trim`
  operations.  Rust lowercases and trims per the full Unicode tables while
  `Char.toLower` / `Char.isWhitespace` cover the ASCII range; the two agree
  on all the ASCII data these claims are about.
* Cell values returned by the remote spreadsheet service are modelled as the
  raw strings the service hands back (the external-collaborator assumption of
  the design: the authenticated client yields raw row/column values).
* File-system and network effects are modelled by passing their outcome in
  explicitly: `FileInput` is the outcome of opening/parsing a local file,
  and `fetchData` takes the remote service as an oracle function.
-/

/-! ## String primitives (models of Rust str operations) -/

/-- Model of `&str` prefix test: does the pattern (first argument) lead the
second argument? -/
def leadsWith : List Char → List Char → Bool
  | [], _ => true
  | _ :: _, [] => false
  | a :: p, b :: s => a == b && leadsWith p s

/-- Model of Rust `str::contains` on character lists: does the pattern
(second argument) occur as a contiguous substring of the first argument? -/
def containsSub : List Char → List Char → Bool
  | [], p => leadsWith p []
  | a :: s, p => leadsWith p (a :: s) || containsSub s p

/-- Model of Rust `str::contains(pat)` for a string pattern. -/
def strContains (s pat : String) : Bool :=
  containsSub s.data pat.data

/-- Model of Rust `str::to_lowercase` (ASCII range). -/
def lowerStr (s : String) : String :=
  String.mk (s.data.map Char.toLower)

/-- Model of Rust `field.trim().is_empty()`: every character is whitespace. -/
def trimEmpty (s : String) : Bool :=
  s.data.all Char.isWhitespace

/-- Model of Rust `str::split(c)`: split a character list on a separator
character.  Always returns a non-empty list of pieces. -/
def splitChar (d : Char) : List Char → List (List Char)
  | [] => [[]]
  | c :: t =>
    match splitChar d t with
    | [] => [[]]
    | cur :: rest => if c == d then [] :: cur :: rest else (c :: cur) :: rest

/-- Model of Rust `Iterator::enumerate` starting from index `n`. -/
def enumFromL (n : Nat) : List String → List (Nat × String)
  | [] => []
  | a :: t => (n, a) :: enumFromL (n + 1) t

/-! ## Data model (data-types.rs) -/

/-- `TableData` from data-types.rs: normalized headers plus rows. -/
structure TableData where
  headers : List String
  rows : List (List String)
deriving DecidableEq, Repr

/-- `TableData::empty()`. -/
def TableData.empty : TableData :=
  { headers := [], rows := [] }

/-- `DataSource` from data-types.rs: a local file path or a cloud
spreadsheet (url, sheet name). -/
inductive DataSource where
  | Local (path : String)
  | Cloud (url sheetName : String)
deriving DecidableEq, Repr

/-! ## Local reader (csv-handler.rs) -/

/-- The fixed hide list built by `CSVHandler::get_columns_to_hide`. -/
def columnsToHide : List String :=
  ["sport_id", "team_members", "team_name", "info", "result_code", "position_pre"]

/-- The hide test of `CSVHandler::process_headers`: some hide keyword occurs
in the lowercased header. -/
def shouldHide (header : String) : Bool :=
  columnsToHide.any (fun col => strContains (lowerStr header) col)

/-- The replacement table of `CSVHandler::replace_header`. -/
def replacements : List (String × String) :=
  [("category", "Series"), ("first_name", "Name"), ("last_name", "Surname"),
   ("organization", "Club"), ("napat", "X"), ("result", "Result"),
   ("posit.", "Rank")]

/-- The final replacement loop of `CSVHandler::replace_header`: first table
entry whose key occurs in the lowercased header, else the header unchanged. -/
def replaceFromTable (header : String) : String :=
  match replacements.find? (fun p => strContains (lowerStr header) p.1) with
  | some p => p.2
  | none => header

/-- `CSVHandler::replace_header`: the `part-` rule, else the `psum-` rule,
else the replacement table, else unchanged.  The token is
`header.split('-').nth(1)`. -/
def replaceHeader (header : String) : String :=
  if strContains (lowerStr header) "part-" then
    match (splitChar '-' header.data)[1]? with
    | some t => "S" ++ String.mk t
    | none => replaceFromTable header
  else if strContains (lowerStr header) "psum-" then
    match (splitChar '-' header.data)[1]? with
    | some t => "P" ++ String.mk t
    | none => replaceFromTable header
  else replaceFromTable header

/-- `CSVHandler::process_headers`: returns the renamed visible headers and
the per-column visibility mask, in input order. -/
def processHeaders : List String → List String × List Bool
  | [] => ([], [])
  | h :: t =>
    if shouldHide h then ((processHeaders t).1, false :: (processHeaders t).2)
    else (replaceHeader h :: (processHeaders t).1, true :: (processHeaders t).2)

/-- The row filter of `CSVHandler::read_csv`:
`record.iter().enumerate().filter(|(i,_)| i < vis.len() && vis[i]).map(...)`. -/
def filterRow (vis : List Bool) (record : List String) : List String :=
  ((enumFromL 0 record).filter
    (fun p => decide (p.1 < vis.length) && vis.getD p.1 false)).map Prod.snd

/-- The empty-row test of `CSVHandler::read_csv`:
`record.iter().all(|field| field.trim().is_empty())`. -/
def rowIsEmptyCsv (record : List String) : Bool :=
  record.all trimEmpty

/-- Outcome of opening and parsing a local file: the file may be unopenable,
or it parses to a header-row result plus a list of per-record results
(`Except.error` is a row-level parse error). -/
inductive FileInput where
  | unopenable
  | opened (headerRow : Except Unit (List String))
           (records : List (Except Unit (List String)))

/-- `CSVHandler::read_csv` on the outcome of opening/parsing the file:
unopenable file or unreadable header row yields the empty table; a record
parse error or an all-blank record is skipped; every other record is
filtered to the visible columns. -/
def readCsv : FileInput → TableData
  | .unopenable => TableData.empty
  | .opened (.error _) _ => TableData.empty
  | .opened (.ok headers) records =>
    { headers := (processHeaders headers).1,
      rows := records.filterMap (fun res =>
        match res with
        | .error _ => none
        | .ok record =>
          if rowIsEmptyCsv record then none
          else some (filterRow (processHeaders headers).2 record)) }

/-- `CSVHandler::detect_delimiter` on the outcome of reading the first line
(`none`: the file could not be opened or read). -/
def detectDelimiter : Option String → Char
  | none => ','
  | some firstLine => if strContains firstLine ";" then ';' else ','

/-! ## Remote reader (cloud-handler.rs) -/

/-- The hide list duplicated inline in `CloudHandler::process_data`. -/
def cloudColumnsToHide : List String :=
  ["sport_id", "team_members", "team_name", "info", "result_code", "position_pre"]

/-- The hide test of the header loop in `CloudHandler::process_data`. -/
def cloudShouldHide (header : String) : Bool :=
  cloudColumnsToHide.any (fun col => strContains (lowerStr header) col)

/-- `CloudHandler::replace_header`, a verbatim duplicate of
`CSVHandler::replace_header`. -/
def cloudReplaceHeader (header : String) : String :=
  if strContains (lowerStr header) "part-" then
    match (splitChar '-' header.data)[1]? with
    | some t => "S" ++ String.mk t
    | none => replaceFromTable header
  else if strContains (lowerStr header) "psum-" then
    match (splitChar '-' header.data)[1]? with
    | some t => "P" ++ String.mk t
    | none => replaceFromTable header
  else replaceFromTable header

/-- The header loop of `CloudHandler::process_data`. -/
def cloudProcessHeaders : List String → List String × List Bool
  | [] => ([], [])
  | h :: t =>
    if cloudShouldHide h then
      ((cloudProcessHeaders t).1, false :: (cloudProcessHeaders t).2)
    else
      (cloudReplaceHeader h :: (cloudProcessHeaders t).1,
       true :: (cloudProcessHeaders t).2)

/-- The indexed row-filter loop of `CloudHandler::process_data`, carrying the
running index `i`. -/
def cloudFilterRowAux (vis : List Bool) : Nat → List String → List String
  | _, [] => []
  | i, c :: rest =>
    if decide (i < vis.length) && vis.getD i false then
      c :: cloudFilterRowAux vis (i + 1) rest
    else cloudFilterRowAux vis (i + 1) rest

/-- The row filter of `CloudHandler::process_data` (loop started at index 0). -/
def cloudFilterRow (vis : List Bool) (row : List String) : List String :=
  cloudFilterRowAux vis 0 row

/-- The category-row test of `CloudHandler::process_data`:
`!row.is_empty() && row[0].to_lowercase() == "category"`. -/
def isCategoryRow : List String → Bool
  | [] => false
  | c :: _ => lowerStr c == "category"

/-- The scan loop of `CloudHandler::process_data`: index of the first
category row, starting the count at `i`. -/
def categoryScan : List (List String) → Nat → Option Nat
  | [], _ => none
  | row :: rest, i =>
    if isCategoryRow row then some i else categoryScan rest (i + 1)

/-- `start_index` in `CloudHandler::process_data`: the first category-row
index, or 0 when the scan finds none. -/
def categoryStartIndex (values : List (List String)) : Nat :=
  (categoryScan values 0).getD 0

/-- The empty-row test of the row loop in `CloudHandler::process_data`. -/
def cloudRowIsEmpty (row : List String) : Bool :=
  row.isEmpty || row.all trimEmpty

/-- `CloudHandler::process_data` on the `values` field of the fetched
`ValueRange` (`none` when the response carries no values). -/
def processData : Option (List (List String)) → TableData
  | none => TableData.empty
  | some values =>
    if values.isEmpty then TableData.empty
    else
      match values.drop (categoryStartIndex values) with
      | [] => TableData.empty
      | hdr :: rest =>
        { headers := (cloudProcessHeaders hdr).1,
          rows := rest.filterMap (fun row =>
            if cloudRowIsEmpty row then none
            else some (cloudFilterRow (cloudProcessHeaders hdr).2 row)) }

/-- The error kinds of the remote path. -/
inductive CloudError where
  | invalidReference
  | sourceUnreachable
deriving DecidableEq, Repr

/-- The scan loop of `CloudHandler::extract_spreadsheet_id`: the segment
after a literal segment `d` that still has a successor. -/
def findIdAfterD : List String → Option String
  | [] => none
  | p :: rest =>
    if p = "d" then
      match rest with
      | next :: _ => some next
      | [] => findIdAfterD rest
    else findIdAfterD rest

/-- `CloudHandler::extract_spreadsheet_id`: split the URL on `/` and scan. -/
def extractSpreadsheetId (url : String) : Except CloudError String :=
  match findIdAfterD ((splitChar '/' url.data).map String.mk) with
  | some id => Except.ok id
  | none => Except.error CloudError.invalidReference

/-- The effective sheet name used by `CloudHandler::fetch_data`. -/
def effectiveSheet (sheetName : String) : String :=
  if sheetName.isEmpty then "Sheet1" else sheetName

/-- `CloudHandler::fetch_data`, with the authenticated remote service passed
in as an oracle mapping (spreadsheet id, range) to the fetched values (or a
transport/auth failure).  The identifier is extracted before anything else;
on extraction failure no oracle call occurs. -/
def fetchData (url sheetName : String)
    (remote : String → String → Except Unit (Option (List (List String)))) :
    Except CloudError TableData :=
  match extractSpreadsheetId url with
  | .error e => .error e
  | .ok id =>
    match remote id (effectiveSheet sheetName ++ "!A:Z") with
    | .error _ => .error CloudError.sourceUnreachable
    | .ok values => .ok (processData values)

/-! ## Poller / consumer (main.rs) -/

/-- `UPDATE_INTERVAL` (seconds). -/
def updateInterval : Nat := 5

/-- The fields of the `ScoreViewer` state that the update logic touches
(UI-only fields omitted). -/
structure AppState where
  dataSource : Option DataSource
  lastData : Option TableData
  lastCheck : Nat
  lastModified : Option Nat
  resultColumnIndex : Option Nat
deriving DecidableEq, Repr

/-- The commands the update logic can dispatch. -/
inductive Cmd where
  | readLocal (path : String)
  | fetchCloud (url sheetName : String)
deriving DecidableEq, Repr

/-- Model of `Iterator::position`: index of the first element satisfying the
test. -/
def positionL (p : String → Bool) : List String → Option Nat
  | [] => none
  | a :: t => if p a then some 0 else (positionL p t).map (· + 1)

/-- The `Message::DataUpdated` arm of `ScoreViewer::update`: store the table
and, only when its headers are non-empty, recompute the result-column index
as the position of the first header whose lowercasing equals "result". -/
def handleDataUpdated (s : AppState) (data : TableData) : AppState :=
  let s1 := { s with lastData := some data }
  if !data.headers.isEmpty then
    { s1 with resultColumnIndex :=
        positionL (fun h => lowerStr h == "result") data.headers }
  else s1

/-- The `Message::CheckForUpdates` arm of `ScoreViewer::update`.  `now` is
the tick instant, `mtime` the file's current modification time when both
`fs::metadata` and `metadata.modified()` succeed (local sources only).
Returns the new state and the dispatched command, if any. -/
def handleCheckForUpdates (s : AppState) (now : Nat) (mtime : Option Nat) :
    AppState × Option Cmd :=
  if updateInterval ≤ now - s.lastCheck then
    let s1 := { s with lastCheck := now }
    match s.dataSource with
    | some (.Local path) =>
      match mtime with
      | some modified =>
        match s.lastModified with
        | some lastMod =>
          if lastMod < modified then
            ({ s1 with lastModified := some modified }, some (.readLocal path))
          else (s1, none)
        | none => ({ s1 with lastModified := some modified }, none)
      | none => (s1, none)
    | some (.Cloud url sheet) => (s1, some (.fetchCloud url sheet))
    | none => (s1, none)
  else (s, none)

/-! ## Claim-side definitions (stated from the specification wording, for
comparison against the source translations above) -/

/-- Stated from the spec: the rename map with the `part-` rule first, then
the `psum-` rule, then the ordered replacement table, with the token taken
as the piece after the first `-` of the raw header. -/
def replaceHeaderClaim (header : String) : String :=
  if strContains (lowerStr header) "part-" then
    "S" ++ String.mk ((splitChar '-' header.data).getD 1 [])
  else if strContains (lowerStr header) "psum-" then
    "P" ++ String.mk ((splitChar '-' header.data).getD 1 [])
  else replaceFromTable header

/-- Stated from the spec: the path segment immediately following the first
segment literally equal to `d`, if any. -/
def afterFirstDClaim : List String → Option String
  | [] => none
  | p :: rest => if p = "d" then rest.head? else afterFirstDClaim rest

/-- Stated from the spec: normalize a slice of returned rows whose head is
the resolved header row — headers from the first row, data from the rest. -/
def cloudNormalize : List (List String) → TableData
  | [] => TableData.empty
  | hdr :: rest =>
    { headers := (cloudProcessHeaders hdr).1,
      rows := rest.filterMap (fun row =>
        if cloudRowIsEmpty row then none
        else some (cloudFilterRow (cloudProcessHeaders hdr).2 row)) }

/-! ## Helper lemmas: string primitives -/

theorem leadsWith_mem {p s : List Char} (h : leadsWith p s = true) :
    ∀ c ∈ p, c ∈ s := by
  induction p generalizing s with
  | nil => intro c hc; exact absurd hc (List.not_mem_nil c)
  | cons a p ih =>
    cases s with
    | nil => exact absurd h (by simp [leadsWith])
    | cons b s =>
      simp only [leadsWith, Bool.and_eq_true, beq_iff_eq] at h
      intro c hc
      rcases List.mem_cons.mp hc with hca | hcp
      · exact List.mem_cons.mpr (Or.inl (hca.trans h.1))
      · exact List.mem_cons.mpr (Or.inr (ih h.2 c hcp))

theorem containsSub_mem {s p : List Char} (h : containsSub s p = true) :
    ∀ c ∈ p, c ∈ s := by
  induction s with
  | nil =>
    cases p with
    | nil => intro c hc; exact absurd hc (List.not_mem_nil c)
    | cons a p => exact absurd h (by simp [containsSub, leadsWith])
  | cons a s ih =>
    simp only [containsSub, Bool.or_eq_true] at h
    rcases h with h | h
    · exact leadsWith_mem h
    · intro c hc; exact List.mem_cons.mpr (Or.inr (ih h c hc))

theorem toLower_dash {c : Char} (h : c.toLower = '-') : c = '-' := by
  unfold Char.toLower at h
  by_cases hn : c.toNat ≥ 65 ∧ c.toNat ≤ 90
  · exfalso
    rw [if_pos hn] at h
    obtain ⟨h1, h2⟩ := hn
    generalize hg : c.toNat = n at h1 h2 h
    interval_cases n <;> exact absurd h (by decide)
  · rw [if_neg hn] at h
    exact h

theorem dash_mem_of_contains_lower {h : String} {pat : String}
    (hc : strContains (lowerStr h) pat = true) (hd : '-' ∈ pat.data) :
    '-' ∈ h.data := by
  have hmem : '-' ∈ h.data.map Char.toLower := containsSub_mem hc '-' hd
  rcases List.mem_map.mp hmem with ⟨c, hcl, he⟩
  rwa [toLower_dash he] at hcl

theorem splitChar_ne_nil (d : Char) (l : List Char) : splitChar d l ≠ [] := by
  induction l with
  | nil => simp [splitChar]
  | cons c t ih =>
    cases hs : splitChar d t with
    | nil => exact absurd hs ih
    | cons cur rest =>
      simp only [splitChar, hs]
      split <;> simp

theorem splitChar_length_of_mem {d : Char} {l : List Char} (h : d ∈ l) :
    2 ≤ (splitChar d l).length := by
  induction l with
  | nil => exact absurd h (List.not_mem_nil d)
  | cons c t ih =>
    cases hs : splitChar d t with
    | nil => exact absurd hs (splitChar_ne_nil d t)
    | cons cur rest =>
      by_cases hcd : c = d
      · simp only [splitChar, hs]
        simp [hcd]
      · have hdt : d ∈ t := by
          rcases List.mem_cons.mp h with h1 | h1
          · exact absurd h1.symm hcd
          · exact h1
        have h2 := ih hdt
        rw [hs] at h2
        simp only [List.length_cons] at h2
        simp only [splitChar, hs]
        simp only [beq_iff_eq, if_neg hcd, List.length_cons]
        omega

theorem getElemQ_of_two_le {l : List (List Char)} (h : 2 ≤ l.length) :
    l[1]? = some (l.getD 1 []) := by
  cases l with
  | nil => simp at h
  | cons a t =>
    cases t with
    | nil => simp at h
    | cons b u => simp [List.getD]

theorem single_contains {s : List Char} {c : Char} :
    containsSub s [c] = decide (c ∈ s) := by
  induction s with
  | nil => simp [containsSub, leadsWith]
  | cons a t ih =>
    simp only [containsSub, leadsWith, Bool.and_true, ih]
    by_cases h : c = a
    · subst h; simp
    · simp [h, Ne.symm h, List.mem_cons]

/-! ## Helper lemmas: header processing and row filtering -/

theorem getD_lt {α : Type} (l : List α) (n : Nat) (d : α) (h : n < l.length) :
    l.getD n d = l[n] := by
  simp [List.getD_eq_getElem?_getD, List.getElem?_eq_getElem h]

theorem processHeaders_fst (hs : List String) :
    (processHeaders hs).1 = (hs.filter (fun h => !shouldHide h)).map replaceHeader := by
  induction hs with
  | nil => rfl
  | cons h t ih =>
    cases hh : shouldHide h <;> simp [processHeaders, hh, List.filter_cons, ih]

theorem processHeaders_snd (hs : List String) :
    (processHeaders hs).2 = hs.map (fun h => !shouldHide h) := by
  induction hs with
  | nil => rfl
  | cons h t ih =>
    cases hh : shouldHide h <;> simp [processHeaders, hh, ih]

theorem cloudShouldHide_eq : cloudShouldHide = shouldHide := rfl

theorem cloudReplaceHeader_eq : cloudReplaceHeader = replaceHeader := rfl

theorem cloudProcessHeaders_eq (hs : List String) :
    cloudProcessHeaders hs = processHeaders hs := by
  induction hs with
  | nil => rfl
  | cons h t ih =>
    cases hh : shouldHide h <;>
      simp [cloudProcessHeaders, processHeaders, cloudShouldHide_eq,
        cloudReplaceHeader_eq, hh, ih]

theorem enumFilter_eq_aux (vis : List Bool) (row : List String) :
    ∀ n, ((enumFromL n row).filter
      (fun p => decide (p.1 < vis.length) && vis.getD p.1 false)).map Prod.snd
      = cloudFilterRowAux vis n row := by
  induction row with
  | nil => intro n; rfl
  | cons c rest ih =>
    intro n
    simp only [enumFromL, List.filter_cons, cloudFilterRowAux]
    cases hc : (decide (n < vis.length) && vis.getD n false)
    · simp only [hc, Bool.false_eq_true, if_false]
      exact ih (n + 1)
    · simp only [hc, if_true, List.map_cons]
      rw [ih (n + 1)]

theorem filterRow_eq_cloud (vis : List Bool) (row : List String) :
    filterRow vis row = cloudFilterRow vis row :=
  enumFilter_eq_aux vis row 0

theorem visPred (hs : List String) (i : Nat) :
    (decide (i < (hs.map (fun h => !shouldHide h)).length)
      && (hs.map (fun h => !shouldHide h)).getD i false)
      = (decide (i < hs.length) && !shouldHide (hs.getD i "")) := by
  induction hs generalizing i with
  | nil => simp
  | cons h t ih =>
    cases i with
    | zero => simp
    | succ j => simpa [Nat.succ_lt_succ_iff] using ih j

theorem filterRow_enum_char (hs : List String) (row : List String) :
    filterRow (processHeaders hs).2 row
      = ((enumFromL 0 row).filter
          (fun p => decide (p.1 < hs.length) && !shouldHide (hs.getD p.1 ""))).map
          Prod.snd := by
  unfold filterRow
  rw [processHeaders_snd]
  congr 1
  exact List.filter_congr (fun p _ => visPred hs p.1)

theorem cloudFilterRowAux_big (vis : List Bool) (row : List String) :
    ∀ n, vis.length ≤ n → cloudFilterRowAux vis n row = [] := by
  induction row with
  | nil => intro n _; rfl
  | cons c rest ih =>
    intro n hn
    have hd : decide (n < vis.length) = false := by simp; omega
    simp only [cloudFilterRowAux, hd, Bool.false_and, Bool.false_eq_true, if_false]
    exact ih (n + 1) (by omega)

theorem cloudFilterRowAux_take (vis : List Bool) (row : List String) :
    ∀ n, cloudFilterRowAux vis n row
      = cloudFilterRowAux vis n (row.take (vis.length - n)) := by
  induction row with
  | nil => intro n; simp
  | cons c rest ih =>
    intro n
    by_cases hn : n < vis.length
    · have htake : vis.length - n = (vis.length - (n + 1)) + 1 := by omega
      rw [htake, List.take_succ_cons]
      cases hc : (decide (n < vis.length) && vis.getD n false) <;>
        simp only [cloudFilterRowAux, hc, Bool.false_eq_true, if_false, if_true,
          List.cons.injEq, true_and] <;> exact ih (n + 1)
    · have h0 : vis.length - n = 0 := by omega
      rw [h0, List.take_zero, cloudFilterRowAux_big vis (c :: rest) n (by omega)]
      rfl

theorem cloudFilterRowAux_count (vis : List Bool) (row : List String) :
    ∀ n, (cloudFilterRowAux vis n row).length ≤ (vis.drop n).count true := by
  induction row with
  | nil => intro n; simp [cloudFilterRowAux]
  | cons c rest ih =>
    intro n
    by_cases hn : n < vis.length
    · have hdrop := List.drop_eq_getElem_cons hn
      cases hc : (decide (n < vis.length) && vis.getD n false)
      · have h1 := ih (n + 1)
        simp only [cloudFilterRowAux, hc, Bool.false_eq_true, if_false]
        rw [hdrop]
        simp only [List.count_cons]
        omega
      · have hgetD : vis.getD n false = true := by
          have h2 := hc
          simp only [Bool.and_eq_true] at h2
          exact h2.2
        have hvn : vis[n] = true := by rw [← getD_lt vis n false hn]; exact hgetD
        have h1 := ih (n + 1)
        simp only [cloudFilterRowAux, hc, if_true, List.length_cons]
        rw [hdrop]
        simp only [List.count_cons, hvn]
        simp
        omega
    · rw [cloudFilterRowAux_big vis (c :: rest) n (by omega)]
      simp

/-! ## Helper lemmas: filterMap and row dropping -/

theorem filterMap_if_eq_filter_map {α β : Type} (p : α → Bool) (f : α → β)
    (l : List α) :
    l.filterMap (fun a => if p a then none else some (f a))
      = (l.filter (fun a => !p a)).map f := by
  induction l with
  | nil => rfl
  | cons a t ih =>
    cases hp : p a <;> simp [List.filterMap_cons, List.filter_cons, hp, ih]

theorem all_filterMap {α β : Type} (l : List α) (f : α → Option β)
    (q : β → Bool) (h : ∀ a b, f a = some b → q b = true) :
    (l.filterMap f).all q = true := by
  induction l with
  | nil => rfl
  | cons a t ih =>
    cases hf : f a with
    | none => simp only [List.filterMap_cons, hf]; exact ih
    | some b =>
      simp only [List.filterMap_cons, hf, List.all_cons, Bool.and_eq_true]
      exact ⟨h a b hf, ih⟩

theorem cloudRowIsEmpty_eq (row : List String) :
    cloudRowIsEmpty row = row.all trimEmpty := by
  cases row <;> simp [cloudRowIsEmpty]

/-! ## Helper lemmas: the category-row scan -/

theorem categoryScan_shift (l : List (List String)) :
    ∀ n, categoryScan l n = (categoryScan l 0).map (fun k => k + n) := by
  induction l with
  | nil => intro n; rfl
  | cons row rest ih =>
    intro n
    cases hc : isCategoryRow row
    · simp only [categoryScan, hc, Bool.false_eq_true, if_false]
      rw [ih (n + 1), ih 1, Option.map_map]
      congr 1
      funext k
      simp only [Function.comp_apply]
      omega
    · simp [categoryScan, hc]

theorem categoryScan_some (l : List (List String)) :
    ∀ i, categoryScan l 0 = some i →
      i < l.length ∧ isCategoryRow (l.getD i []) = true
        ∧ ∀ j, j < i → isCategoryRow (l.getD j []) = false := by
  induction l with
  | nil => intro i h; exact absurd h (by simp [categoryScan])
  | cons row rest ih =>
    intro i h
    cases hc : isCategoryRow row
    · simp only [categoryScan, hc, Bool.false_eq_true, if_false] at h
      rw [categoryScan_shift rest 1] at h
      cases hs : categoryScan rest 0 with
      | none => rw [hs] at h; simp at h
      | some k =>
        rw [hs] at h
        simp at h
        obtain ⟨hk1, hk2, hk3⟩ := ih k hs
        subst h
        refine ⟨by simp; omega, by simpa using hk2, ?_⟩
        intro j hj
        cases j with
        | zero => simpa using hc
        | succ j => simp only [List.getD_cons_succ]; exact hk3 j (by omega)
    · simp only [categoryScan, hc, if_true, Option.some.injEq] at h
      subst h
      exact ⟨by simp, by simpa using hc, fun j hj => absurd hj (by omega)⟩

theorem categoryScan_none (l : List (List String))
    (h : categoryScan l 0 = none) : ∀ row ∈ l, isCategoryRow row = false := by
  induction l with
  | nil => intro row hr; exact absurd hr (List.not_mem_nil row)
  | cons r rest ih =>
    cases hc : isCategoryRow r
    · simp only [categoryScan, hc, Bool.false_eq_true, if_false] at h
      rw [categoryScan_shift rest 1] at h
      have hn : categoryScan rest 0 = none := by
        cases hs : categoryScan rest 0
        · rfl
        · rw [hs] at h; simp at h
      intro row hr
      rcases List.mem_cons.mp hr with h1 | h1
      · rw [h1]; exact hc
      · exact ih hn row h1
    · simp [categoryScan, hc] at h

theorem categoryScan_none_of_all (l : List (List String))
    (h : ∀ row ∈ l, isCategoryRow row = false) : categoryScan l 0 = none := by
  induction l with
  | nil => rfl
  | cons r rest ih =>
    have hr : isCategoryRow r = false := h r (by simp)
    simp only [categoryScan, hr, Bool.false_eq_true, if_false]
    rw [categoryScan_shift rest 1,
      ih (fun row hrow => h row (List.mem_cons.mpr (Or.inr hrow)))]
    rfl

theorem categoryStartIndex_lt (values : List (List String)) (h : values ≠ []) :
    categoryStartIndex values < values.length := by
  cases hs : categoryScan values 0 with
  | none =>
    simp only [categoryStartIndex, hs, Option.getD_none]
    cases values with
    | nil => exact absurd rfl h
    | cons v vs => simp
  | some i =>
    simp only [categoryStartIndex, hs, Option.getD_some]
    exact (categoryScan_some values i hs).1

/-! ## Claim theorems -/

/-- C4: `replace_header` maps every visible header by the first matching
rule, case-insensitively, in strict order: a header containing `part-`
yields `"S"` plus the token after the first `-`; else a header containing
`psum-` yields `"P"` plus that token; else the first matching entry of the
ordered replacement table; else the header passes through unchanged.  In
particular `"part-3"` maps to `"S3"`, `"PSUM-12"` to `"P12"` and
`"Category"` to `"Series"`; the cloud path's copy agrees. -/
theorem claim_c4 (header : String) :
    replaceHeader header = replaceHeaderClaim header
    ∧ cloudReplaceHeader header = replaceHeader header
    ∧ replaceHeader "part-3" = "S3"
    ∧ replaceHeader "PSUM-12" = "P12"
    ∧ replaceHeader "Category" = "Series" := by
  refine ⟨?_, rfl, by decide, by decide, by decide⟩
  unfold replaceHeader replaceHeaderClaim
  cases hp : strContains (lowerStr header) "part-"
  · cases hq : strContains (lowerStr header) "psum-"
    · simp only [hp, hq, Bool.false_eq_true, if_false]
    · have hd : '-' ∈ header.data := dash_mem_of_contains_lower hq (by decide)
      have he := getElemQ_of_two_le (splitChar_length_of_mem hd)
      simp only [hp, hq, Bool.false_eq_true, if_false, if_true, he]
  · have hd : '-' ∈ header.data := dash_mem_of_contains_lower hp (by decide)
    have he := getElemQ_of_two_le (splitChar_length_of_mem hd)
    simp only [hp, if_true, he]

/-- C6: `read_csv` is total — it always returns a `TableData` (its Lean
type), an unopenable file or an unreadable header row yields the empty
table, and a parse error on a single data row skips exactly that row while
the remaining rows are still ingested. -/
theorem claim_c6 (hs : List String)
    (recs1 recs2 : List (Except Unit (List String))) :
    readCsv FileInput.unopenable = TableData.empty
    ∧ readCsv (FileInput.opened (Except.error ()) recs1) = TableData.empty
    ∧ readCsv (FileInput.opened (Except.ok hs) (recs1 ++ Except.error () :: recs2))
        = readCsv (FileInput.opened (Except.ok hs) (recs1 ++ recs2)) := by
  refine ⟨rfl, rfl, ?_⟩
  simp [readCsv, List.filterMap_append, List.filterMap_cons]

theorem findIdAfterD_eq (parts : List String) :
    findIdAfterD parts = afterFirstDClaim parts := by
  induction parts with
  | nil => rfl
  | cons p rest ih =>
    by_cases hp : p = "d"
    · cases rest <;> simp [findIdAfterD, afterFirstDClaim, hp]
    · simp [findIdAfterD, afterFirstDClaim, hp, ih]

/-- C7: the extracted spreadsheet identifier is the `/`-separated segment
immediately following the first segment literally equal to `"d"`; when no
such followed segment exists, `fetch_data` fails with `InvalidReference`
and the remote service is never consulted (the result is the error for
every oracle). -/
theorem claim_c7 (url sheetName : String)
    (remote : String → String → Except Unit (Option (List (List String)))) :
    extractSpreadsheetId url
      = (match afterFirstDClaim ((splitChar '/' url.data).map String.mk) with
         | some id => Except.ok id
         | none => Except.error CloudError.invalidReference)
    ∧ (afterFirstDClaim ((splitChar '/' url.data).map String.mk) = none →
        fetchData url sheetName remote
          = Except.error CloudError.invalidReference) := by
  constructor
  · unfold extractSpreadsheetId
    rw [findIdAfterD_eq]
  · intro h
    unfold fetchData extractSpreadsheetId
    rw [findIdAfterD_eq, h]

/-- C7 witness: on the URL `"a/b/c"`, which has no `"d"` segment, fetching
fails with `InvalidReference` for an arbitrary concrete oracle. -/
theorem claim_c7_witness :
    fetchData "a/b/c" "" (fun _ _ => Except.ok none)
      = Except.error CloudError.invalidReference :=
  (claim_c7 "a/b/c" "" (fun _ _ => Except.ok none)).2 (by decide)

/-- C8: the delimiter for a local file is `;` exactly when the first line
contains a `;` character, and `,` otherwise — including when the file
cannot be opened or its first line cannot be read. -/
theorem claim_c8 (l : String) :
    detectDelimiter (some l) = (if ';' ∈ l.data then ';' else ',')
    ∧ detectDelimiter none = ',' := by
  refine ⟨?_, rfl⟩
  have hred : detectDelimiter (some l)
      = (if containsSub l.data [';'] = true then ';' else ',') := rfl
  rw [hred, single_contains]
  by_cases h : ';' ∈ l.data <;> simp [h]

/-- C2 counterexample: the claim says the result-column index is recomputed
for every published table, including one with empty headers; but on a state
holding a stale index `some 0`, publishing the empty table leaves the index
at `some 0`, while the recomputation the claim demands would yield `none`. -/
theorem c2_counterexample :
    (handleDataUpdated
      { dataSource := none, lastData := none, lastCheck := 0,
        lastModified := none, resultColumnIndex := some 0 }
      TableData.empty).resultColumnIndex = some 0
    ∧ positionL (fun h => lowerStr h == "result") TableData.empty.headers
        = none := by
  exact ⟨rfl, rfl⟩

/-- C2 (amended): on every published table the consumer stores the table;
the result-column index is recomputed — as the position of the first header
whose lowercasing equals `"result"`, or `none` — exactly when the published
headers are non-empty, and is left unchanged when the headers are empty. -/
theorem claim_c2_amended (s : AppState) (data : TableData) :
    (handleDataUpdated s data).lastData = some data
    ∧ (handleDataUpdated s data).resultColumnIndex
      = (if data.headers.isEmpty then s.resultColumnIndex
         else positionL (fun h => lowerStr h == "result") data.headers) := by
  unfold handleDataUpdated
  cases hh : data.headers.isEmpty <;> simp [hh]

/-- C9: on a gated tick with a Local source whose last-observed modification
time exists and whose current modification time is readable, a re-ingestion
command is dispatched exactly when the current time is strictly newer; when
it is not strictly newer, no read happens and the stored table and observed
modification time are unchanged. -/
theorem claim_c9 (s : AppState) (now m t : Nat) (path : String)
    (hgate : updateInterval ≤ now - s.lastCheck)
    (hsrc : s.dataSource = some (DataSource.Local path))
    (hlast : s.lastModified = some t) :
    ((handleCheckForUpdates s now (some m)).2 = some (Cmd.readLocal path) ↔ t < m)
    ∧ (¬ t < m →
        (handleCheckForUpdates s now (some m)).1.lastModified = s.lastModified
        ∧ (handleCheckForUpdates s now (some m)).1.lastData = s.lastData
        ∧ (handleCheckForUpdates s now (some m)).2 = none) := by
  unfold handleCheckForUpdates
  rw [if_pos hgate, hsrc]
  by_cases h : t < m
  · simp [hlast, h]
  · simp [hlast, h]

/-- C9 witness: concrete state with observed modification time 10; at a
gated tick with current modification time 11 the read command is issued. -/
theorem claim_c9_witness :
    (handleCheckForUpdates
      { dataSource := some (DataSource.Local "scores.csv"),
        lastData := some TableData.empty, lastCheck := 0,
        lastModified := some 10, resultColumnIndex := none }
      5 (some 11)).2 = some (Cmd.readLocal "scores.csv") :=
  ((claim_c9
      { dataSource := some (DataSource.Local "scores.csv"),
        lastData := some TableData.empty, lastCheck := 0,
        lastModified := some 10, resultColumnIndex := none }
      5 11 10 "scores.csv" (by decide) rfl rfl).1).mpr (by decide)

theorem processData_eq (values : List (List String)) (h : values ≠ []) :
    processData (some values)
      = cloudNormalize (values.drop (categoryStartIndex values)) := by
  cases values with
  | nil => exact absurd rfl h
  | cons v vs =>
    have hlt := categoryStartIndex_lt (v :: vs) (by simp)
    have hdrop := List.drop_eq_getElem_cons hlt
    simp only [processData, List.isEmpty_cons, Bool.false_eq_true, if_false]
    rw [hdrop]
    rfl

theorem cloudNormalize_rows (l : List (List String)) :
    (cloudNormalize l).rows
      = ((l.drop 1).filter (fun r => !(r.all trimEmpty))).map
          (cloudFilterRow (cloudProcessHeaders (l.headD [])).2) := by
  cases l with
  | nil => rfl
  | cons hdr rest =>
    show rest.filterMap _ = _
    have hfun : (fun row => if cloudRowIsEmpty row then none
        else some (cloudFilterRow (cloudProcessHeaders hdr).2 row))
        = (fun row => if row.all trimEmpty then none
        else some (cloudFilterRow (cloudProcessHeaders hdr).2 row)) := by
      funext r
      rw [cloudRowIsEmpty_eq]
    rw [hfun]
    exact filterMap_if_eq_filter_map (fun r => r.all trimEmpty)
      (cloudFilterRow (cloudProcessHeaders hdr).2) rest

/-- C3: on both paths, a raw header containing one of the hide keywords
(case-insensitively) contributes no output header and its column index is
excluded from every output row, while all other columns are retained in
first-seen input order: the output headers are exactly the renamed visible
headers in order, the visibility mask marks exactly the non-hidden columns,
the cloud path computes the same mask and headers, and an output row keeps
exactly the cells whose index is in range and not hidden. -/
theorem claim_c3 (hs : List String) (row : List String) :
    (processHeaders hs).1 = (hs.filter (fun h => !shouldHide h)).map replaceHeader
    ∧ (processHeaders hs).2 = hs.map (fun h => !shouldHide h)
    ∧ cloudProcessHeaders hs = processHeaders hs
    ∧ filterRow (processHeaders hs).2 row
        = ((enumFromL 0 row).filter
            (fun p => decide (p.1 < hs.length) && !shouldHide (hs.getD p.1 ""))).map
            Prod.snd
    ∧ cloudFilterRow (processHeaders hs).2 row = filterRow (processHeaders hs).2 row :=
  ⟨processHeaders_fst hs, processHeaders_snd hs, cloudProcessHeaders_eq hs,
   filterRow_enum_char hs row, (filterRow_eq_cloud _ row).symm⟩

/-- C5: on both paths a data row is dropped exactly when every cell, after
trimming whitespace, is empty: the output rows are the non-blank rows, in
order, each filtered to the visible columns. -/
theorem claim_c5 (hs : List String) (records : List (List String))
    (values : List (List String)) :
    (readCsv (FileInput.opened (Except.ok hs) (records.map Except.ok))).rows
      = (records.filter (fun r => !(r.all trimEmpty))).map
          (filterRow (processHeaders hs).2)
    ∧ (processData (some values)).rows
      = ((values.drop (categoryStartIndex values + 1)).filter
          (fun r => !(r.all trimEmpty))).map
          (cloudFilterRow
            (cloudProcessHeaders
              ((values.drop (categoryStartIndex values)).headD [])).2) := by
  constructor
  · show (records.map Except.ok).filterMap _ = _
    rw [List.filterMap_map]
    exact filterMap_if_eq_filter_map rowIsEmptyCsv
      (filterRow (processHeaders hs).2) records
  · cases values with
    | nil => rfl
    | cons v vs =>
      rw [processData_eq (v :: vs) (by simp), cloudNormalize_rows, List.drop_drop]

/-- C10: on both paths an output row keeps only cells whose raw index is
within the header row's length, so a raw row longer than the header row is
truncated (cells at or beyond the raw header count never appear), and every
output row is at most as long as the number of visible columns; the bound
holds for every row produced by `read_csv` and by `process_data`. -/
theorem claim_c10 (hs : List String) (row : List String)
    (recs : List (Except Unit (List String))) (values : List (List String)) :
    filterRow (processHeaders hs).2 row
      = filterRow (processHeaders hs).2 (row.take hs.length)
    ∧ cloudFilterRow (cloudProcessHeaders hs).2 row
      = cloudFilterRow (cloudProcessHeaders hs).2 (row.take hs.length)
    ∧ (filterRow (processHeaders hs).2 row).length
        ≤ (processHeaders hs).2.count true
    ∧ ((readCsv (FileInput.opened (Except.ok hs) recs)).rows).all
        (fun r => decide (r.length ≤ (processHeaders hs).2.count true)) = true
    ∧ ((processData (some values)).rows).all
        (fun r => decide (r.length
          ≤ (cloudProcessHeaders
              ((values.drop (categoryStartIndex values)).headD [])).2.count true))
        = true := by
  have htake : ∀ r : List String, filterRow (processHeaders hs).2 r
      = filterRow (processHeaders hs).2 (r.take hs.length) := by
    intro r
    have hvl : (processHeaders hs).2.length = hs.length := by
      rw [processHeaders_snd]
      exact List.length_map hs _
    rw [filterRow_eq_cloud, filterRow_eq_cloud]
    unfold cloudFilterRow
    have h := cloudFilterRowAux_take (processHeaders hs).2 r 0
    rw [Nat.sub_zero, hvl] at h
    exact h
  have hbound : ∀ (gs : List String) (r : List String),
      (filterRow (processHeaders gs).2 r).length
        ≤ (processHeaders gs).2.count true := by
    intro gs r
    rw [filterRow_eq_cloud]
    unfold cloudFilterRow
    have h := cloudFilterRowAux_count (processHeaders gs).2 r 0
    rwa [List.drop_zero] at h
  refine ⟨htake row, ?_, hbound hs row, ?_, ?_⟩
  · rw [cloudProcessHeaders_eq, ← filterRow_eq_cloud, ← filterRow_eq_cloud]
    exact htake row
  · apply all_filterMap
    intro a b hab
    cases a with
    | error e => exact absurd hab (by simp)
    | ok record =>
      simp only at hab
      cases hre : rowIsEmptyCsv record
      · rw [hre] at hab
        simp only [Bool.false_eq_true, if_false, Option.some.injEq] at hab
        subst hab
        simp only [decide_eq_true_eq]
        exact hbound hs record
      · rw [hre] at hab
        simp at hab
  · cases values with
    | nil => rfl
    | cons v vs =>
      rw [processData_eq (v :: vs) (by simp)]
      cases hd : (v :: vs).drop (categoryStartIndex (v :: vs)) with
      | nil => rfl
      | cons hdr rest =>
        show (rest.filterMap _).all _ = true
        apply all_filterMap
        intro a b hab
        cases hre : cloudRowIsEmpty a
        · rw [hre] at hab
          simp only [Bool.false_eq_true, if_false, Option.some.injEq] at hab
          subst hab
          simp only [hd, List.headD_cons, decide_eq_true_eq]
          rw [cloudProcessHeaders_eq, ← filterRow_eq_cloud]
          exact hbound hdr a
        · rw [hre] at hab
          simp at hab

/-- C1: for a non-empty fetched value set, the header row used by
`process_data` is the first returned row whose first cell, case-folded,
equals exactly `"category"`: the start index never points past a category
row, it lands on a category row whenever one exists, it falls back to row 0
when none exists, and the produced table is exactly the normalization of
the slice from the start index on (all earlier rows discarded, the slice's
head used as the header row). -/
theorem claim_c1 (values : List (List String)) :
    ((List.range (categoryStartIndex values)).all
      (fun j => !isCategoryRow (values.getD j []))) = true
    ∧ (values.any isCategoryRow = true →
        isCategoryRow (values.getD (categoryStartIndex values) []) = true)
    ∧ (values.any isCategoryRow = false → categoryStartIndex values = 0)
    ∧ (values ≠ [] →
        processData (some values)
          = cloudNormalize (values.drop (categoryStartIndex values))) := by
  refine ⟨?_, ?_, ?_, fun h => processData_eq values h⟩
  · cases hsc : categoryScan values 0 with
    | none => simp [categoryStartIndex, hsc]
    | some i =>
      obtain ⟨h1, h2, h3⟩ := categoryScan_some values i hsc
      simp only [categoryStartIndex, hsc, Option.getD_some]
      rw [List.all_eq_true]
      intro j hj
      rw [List.mem_range] at hj
      have h4 := h3 j hj
      simp only [List.getD_eq_getElem?_getD] at h4
      simp [h4]
  · intro hany
    cases hsc : categoryScan values 0 with
    | none =>
      exfalso
      rcases List.any_eq_true.mp hany with ⟨x, hx, hpx⟩
      rw [categoryScan_none values hsc x hx] at hpx
      exact absurd hpx (by simp)
    | some i =>
      simp only [categoryStartIndex, hsc, Option.getD_some]
      exact (categoryScan_some values i hsc).2.1
  · intro hany
    have hall : ∀ r ∈ values, isCategoryRow r = false := by
      intro r hr
      cases hc : isCategoryRow r
      · rfl
      · exfalso
        have h2 : values.any isCategoryRow = true :=
          List.any_eq_true.mpr ⟨r, hr, hc⟩
        rw [hany] at h2
        exact absurd h2 (by simp)
    rw [categoryStartIndex, categoryScan_none_of_all values hall]
    rfl

/-- C1 witness: with rows `[["x"], ["Category", "a"], ["", "y"]]` the table
is the normalization of the slice starting at the category row (index 1),
and with rows `[["z"]]` (no category row) the start index is 0. -/
theorem claim_c1_witness :
    processData (some [["x"], ["Category", "a"], ["", "y"]])
      = cloudNormalize
          (([["x"], ["Category", "a"], ["", "y"]]).drop
            (categoryStartIndex [["x"], ["Category", "a"], ["", "y"]]))
    ∧ isCategoryRow
        ([["x"], ["Category", "a"], ["", "y"]].getD
          (categoryStartIndex [["x"], ["Category", "a"], ["", "y"]]) []) = true
    ∧ categoryStartIndex [["z"]] = 0 :=
  ⟨(claim_c1 [["x"], ["Category", "a"], ["", "y"]]).2.2.2 (by decide),
   (claim_c1 [["x"], ["Category", "a"], ["", "y"]]).2.1 (by decide),
   (claim_c1 [["z"]]).2.2.1 (by decide)⟩
